import Mathlib

/-!
# SynthLFO: timebase and note-event behaviour

A shallow embedding of `SynthLFO` from `PluginObjects/Synth Source/synthlfo.h`.

* A C++ `double` is a value of an arbitrary linearly ordered field `R`, so every
  statement over `R` is one of exact arithmetic; the concrete evaluations are done in `ℚ`.
* The advance-and-wrap step is embedded a second time on IEEE 754 binary64 values, with
  every `+=` and `-=` rounded to nearest, ties to even (the names ending in `F64`). It
  shows where the rounding of the doubles makes the code depart from exact arithmetic.
* A member function that mutates the object is a function from the state before the
  call to the returned `bool` paired with the state after it.
* A function that takes `double& moduloCounter` returns the `bool` paired with the
  value the referenced counter holds on return.
* `uint32_t` values are natural numbers and `int` values are integers; none of the
  functions embedded here does arithmetic on them.
* The constant `kPi` of `synthdefs.h` is a parameter of the parabolic sine; the statements
  that compare with the true sine are made over `ℝ` with `Real.pi` for it.
-/

/-- LFO waveform (`enum class LFOWaveform`). -/
inductive LFOWaveform where
  | kTriangle
  | kSin
  | kSaw
  | kRSH
  | kQRSH
  | kNoise
  | kQRNoise
deriving DecidableEq, Repr

/-- LFO mode of operation (`enum class LFOMode`). -/
inductive LFOMode where
  | kSync
  | kOneShot
  | kFreeRun
deriving DecidableEq, Repr

/-- The parameter block `struct SynthLFOParameters`. -/
structure SynthLFOParameters (R : Type) where
  waveform : LFOWaveform
  mode : LFOMode
  frequency_Hz : R
  outputAmplitude : R
  delay_mSec : R
deriving DecidableEq

/-- Modelled from the spec: the class `Timer` is declared in `synthdefs.h`, which is not
among the sources. The spec describes a delay timer that a note-on resets "to zero
elapsed time", so a timer is its elapsed count. -/
structure Timer where
  elapsed : Nat
deriving DecidableEq, Repr

/-- Modelled from the spec: `Timer::resetTimer()` (declared in `synthdefs.h`, not among
the sources) puts the timer back to zero elapsed time. -/
def Timer.resetTimer (t : Timer) : Timer :=
  { t with elapsed := 0 }

/-- The data members of `class SynthLFO` that its inline member functions read or write.
`parameters` is the block the shared pointer refers to. The members `midiInputData` and
`modulators` (types of `synthdefs.h`) are used by none of the functions below and are
left out. -/
structure SynthLFO (R : Type) where
  parameters : SynthLFOParameters R
  sampleRate : R
  modCounter : R
  phaseInc : R
  modCounterQP : R
  renderComplete : Bool
  lfo1Timer : Timer
  pnRegister : Nat
  randomSHCounter : Int
  randomSHValue : R
deriving DecidableEq

namespace SynthLFO

variable {R : Type} [LinearOrderedField R]

/-- Member function `SynthLFO::reset(double _sampleRate)`. -/
def reset (s : SynthLFO R) (_sampleRate : R) : Bool × SynthLFO R :=
  let s1 := { s with sampleRate := _sampleRate }
  let s2 := { s1 with phaseInc := s1.parameters.frequency_Hz / s1.sampleRate }
  let s3 := { s2 with modCounter := 0.0 }
  let s4 := { s3 with modCounterQP := 0.25 }
  (true, s4)

/-- Member function `SynthLFO::doNoteOn(double midiPitch, uint32_t _midiNoteNumber, uint32_t midiNoteVelocity)`. -/
def doNoteOn (s : SynthLFO R) (_midiPitch : R) (_midiNoteNumber _midiNoteVelocity : Nat) :
    Bool × SynthLFO R :=
  let s1 := { s with renderComplete := false }
  let s2 := { s1 with lfo1Timer := s1.lfo1Timer.resetTimer }
  let s3 :=
    if s2.parameters.mode = LFOMode.kSync ∨ s2.parameters.mode = LFOMode.kOneShot then
      { s2 with modCounter := 0.0, modCounterQP := 0.25 }
    else s2
  let s4 := { s3 with randomSHCounter := -1 }
  (true, s4)

/-- Member function `SynthLFO::doNoteOff(double midiPitch, uint32_t _midiNoteNumber, uint32_t midiNoteVelocity)`. -/
def doNoteOff (s : SynthLFO R) (_midiPitch : R) (_midiNoteNumber _midiNoteVelocity : Nat) :
    Bool × SynthLFO R :=
  (true, s)

/-- Member function `SynthLFO::checkAndWrapModulo(double& moduloCounter, double phaseInc)`. -/
def checkAndWrapModulo (moduloCounter phaseInc : R) : Bool × R :=
  if phaseInc > 0 ∧ moduloCounter ≥ 1.0 then
    (true, moduloCounter - 1.0)
  else if phaseInc < 0 ∧ moduloCounter ≤ 0.0 then
    (true, moduloCounter + 1.0)
  else
    (false, moduloCounter)

/-- Member function `SynthLFO::advanceAndCheckWrapModulo(double& moduloCounter, double phaseInc)`. -/
def advanceAndCheckWrapModulo (moduloCounter phaseInc : R) : Bool × R :=
  let moduloCounter := moduloCounter + phaseInc
  if phaseInc > 0 ∧ moduloCounter ≥ 1.0 then
    (true, moduloCounter - 1.0)
  else if phaseInc < 0 ∧ moduloCounter ≤ 0.0 then
    (true, moduloCounter + 1.0)
  else
    (false, moduloCounter)

/-- Member function `SynthLFO::advanceModulo(double& moduloCounter, double phaseInc)`. -/
def advanceModulo (moduloCounter phaseInc : R) : R :=
  moduloCounter + phaseInc

/-- The counter after `n` successive calls of `advanceAndCheckWrapModulo` with the same
phase increment, starting from `moduloCounter`. -/
def advanceSteps (phaseInc : R) : Nat → R → R
  | 0, moduloCounter => moduloCounter
  | n + 1, moduloCounter =>
      (advanceAndCheckWrapModulo (advanceSteps phaseInc n moduloCounter) phaseInc).2

/-- The counter after `n` successive calls of `checkAndWrapModulo` with the same phase
increment, starting from `moduloCounter`. -/
def checkSteps (phaseInc : R) : Nat → R → R
  | 0, moduloCounter => moduloCounter
  | n + 1, moduloCounter =>
      (checkAndWrapModulo (checkSteps phaseInc n moduloCounter) phaseInc).2

/-- The flag returned by the call of `advanceAndCheckWrapModulo` that follows `n` earlier
calls with the same phase increment (call number `n + 1`), starting from `moduloCounter`. -/
def wrapReported (phaseInc : R) (n : Nat) (moduloCounter : R) : Bool :=
  (advanceAndCheckWrapModulo (advanceSteps phaseInc n moduloCounter) phaseInc).1

/-- Member constant `const double B = 4.0 / kPi`. The constant `kPi` is defined in
`synthdefs.h`, which is not among the sources, and is taken as a parameter. -/
def B (kPi : R) : R :=
  4.0 / kPi

/-- Member constant `const double C = -4.0 / (kPi* kPi)`, with `kPi` a parameter as for `B`. -/
def C (kPi : R) : R :=
  -4.0 / (kPi * kPi)

/-- Member constant `const double P = 0.225`. -/
def P : R :=
  0.225

/-- Member function `SynthLFO::parabolicSine(double angle)`, with `kPi` a parameter as for
`B`; `fabs` is the absolute value. -/
def parabolicSine (kPi angle : R) : R :=
  let y := B kPi * angle + C kPi * angle * |angle|
  let y := P * (y * |y| - y) + y
  y

/-- A note event delivered to the LFO, with the arguments of the call. -/
inductive NoteEvent (R : Type) where
  | noteOn (midiPitch : R) (midiNoteNumber midiNoteVelocity : Nat)
  | noteOff (midiPitch : R) (midiNoteNumber midiNoteVelocity : Nat)

/-- The state after one note event: the state `doNoteOn` or `doNoteOff` leaves. -/
def applyNoteEvent (s : SynthLFO R) : NoteEvent R → SynthLFO R
  | NoteEvent.noteOn midiPitch midiNoteNumber midiNoteVelocity =>
      (s.doNoteOn midiPitch midiNoteNumber midiNoteVelocity).2
  | NoteEvent.noteOff midiPitch midiNoteNumber midiNoteVelocity =>
      (s.doNoteOff midiPitch midiNoteNumber midiNoteVelocity).2

/-- The state after a sequence of note events, delivered in order. -/
def applyNoteEvents (s : SynthLFO R) (events : List (NoteEvent R)) : SynthLFO R :=
  events.foldl applyNoteEvent s

/-! ## IEEE 754 binary64 values

The finite values of a C++ `double` are the integer multiples `k * 2^-1074` of the least
subnormal whose magnitude has at most 53 significant bits. Here a double is represented by
the integer `k`. The sum or difference of two doubles is then an exact integer, and the
result of the C++ operation is that integer rounded to 53 significant bits, to nearest,
ties to even. Overflow to infinity is not modelled: every value used below is under 2.0. -/

/-- The number of low bits to drop from `n` so that fewer than 54 bits are left: `n` is halved
until it is below `2^53`; `s` counts the halvings and the first argument bounds their
number. -/
def F64.excessBits : Nat → Nat → Nat → Nat
  | 0, _, s => s
  | fuel + 1, n, s => if n < 2 ^ 53 then s else F64.excessBits fuel (n / 2) (s + 1)

/-- A natural number rounded to 53 significant bits, to nearest, ties to even. -/
def F64.roundMagnitude (n : Nat) : Nat :=
  let s := F64.excessBits n n 0
  let q := n / 2 ^ s
  let r := n % 2 ^ s
  if 2 * r < 2 ^ s ∨ (2 * r = 2 ^ s ∧ q % 2 = 0) then q * 2 ^ s else (q + 1) * 2 ^ s

/-- An integer number of units of `2^-1074` rounded to the nearest double, ties to even. -/
def F64.round (x : Int) : Int :=
  if x < 0 then -((F64.roundMagnitude x.natAbs : Nat) : Int)
  else ((F64.roundMagnitude x.natAbs : Nat) : Int)

/-- The double `1.0`, in units of `2^-1074`. -/
def F64.one : Int :=
  ((2 ^ 1074 : Nat) : Int)

/-- The double `0.25`, in units of `2^-1074`. -/
def F64.quarter : Int :=
  ((2 ^ 1072 : Nat) : Int)

/-- The double nearest to `0.1`, `0x1.999999999999ap-4`, in units of `2^-1074`. -/
def F64.tenth : Int :=
  ((7205759403792794 * 2 ^ 1018 : Nat) : Int)

/-- The rational value of the double represented by `k`. -/
def F64.toRat (k : Int) : ℚ :=
  (k : ℚ) / 2 ^ 1074

/-- Member function `SynthLFO::advanceAndCheckWrapModulo(double& moduloCounter, double phaseInc)`
on binary64 values: the comparisons are exact and each of `+=`, `-=` rounds its result. -/
def advanceAndCheckWrapModuloF64 (moduloCounter phaseInc : Int) : Bool × Int :=
  let moduloCounter := F64.round (moduloCounter + phaseInc)
  if phaseInc > 0 ∧ moduloCounter ≥ F64.one then
    (true, F64.round (moduloCounter - F64.one))
  else if phaseInc < 0 ∧ moduloCounter ≤ 0 then
    (true, F64.round (moduloCounter + F64.one))
  else
    (false, moduloCounter)

/-- The binary64 counter after `n` successive calls of `advanceAndCheckWrapModulo` with the
same phase increment, starting from `moduloCounter`. -/
def advanceStepsF64 (phaseInc : Int) : Nat → Int → Int
  | 0, moduloCounter => moduloCounter
  | n + 1, moduloCounter =>
      (advanceAndCheckWrapModuloF64 (advanceStepsF64 phaseInc n moduloCounter) phaseInc).2

/-- The flag returned by the binary64 call of `advanceAndCheckWrapModulo` that follows `n`
earlier calls with the same phase increment (call number `n + 1`). -/
def wrapReportedF64 (phaseInc : Int) (n : Nat) (moduloCounter : Int) : Bool :=
  (advanceAndCheckWrapModuloF64 (advanceStepsF64 phaseInc n moduloCounter) phaseInc).1

/-- A state in which a one-shot cycle has completed, with the counters away from their
starting offsets: 48 kHz, 2 Hz, one-shot mode. -/
def heldOneShot : SynthLFO ℚ :=
  { parameters :=
      { waveform := LFOWaveform.kSin, mode := LFOMode.kOneShot, frequency_Hz := 2,
        outputAmplitude := 1, delay_mSec := 0 }
    sampleRate := 48000
    modCounter := 3 / 8
    phaseInc := 1 / 24000
    modCounterQP := 5 / 8
    renderComplete := true
    lfo1Timer := { elapsed := 731 }
    pnRegister := 12345
    randomSHCounter := 17
    randomSHValue := 1 / 3 }

/-- The state `heldOneShot` with the mode parameter set to free-run. -/
def freeRunning : SynthLFO ℚ :=
  { heldOneShot with parameters := { heldOneShot.parameters with mode := LFOMode.kFreeRun } }

/-! ## Literals -/

theorem lit_zero : (0.0 : R) = 0 := by norm_num

theorem lit_one : (1.0 : R) = 1 := by norm_num

theorem lit_quarter : (0.25 : R) = 1 / 4 := by norm_num

/-! ## The wrap helpers, with the literals evaluated -/

theorem checkAndWrapModulo_eq (c inc : R) :
    checkAndWrapModulo c inc =
      if 0 < inc ∧ 1 ≤ c then (true, c - 1)
      else if inc < 0 ∧ c ≤ 0 then (true, c + 1)
      else (false, c) := by
  simp only [checkAndWrapModulo, lit_zero, lit_one, gt_iff_lt, ge_iff_le]

theorem advanceAndCheckWrapModulo_eq (c inc : R) :
    advanceAndCheckWrapModulo c inc =
      if 0 < inc ∧ 1 ≤ c + inc then (true, c + inc - 1)
      else if inc < 0 ∧ c + inc ≤ 0 then (true, c + inc + 1)
      else (false, c + inc) := by
  simp only [advanceAndCheckWrapModulo, lit_zero, lit_one, gt_iff_lt, ge_iff_le]

/-- One call moves the counter by the increment plus a whole number of cycles. -/
theorem advanceAndCheckWrapModulo_cycles (c inc : R) :
    ∃ z : ℤ, (advanceAndCheckWrapModulo c inc).2 = c + inc + (z : R) := by
  rw [advanceAndCheckWrapModulo_eq]
  split_ifs
  · exact ⟨-1, by push_cast; ring⟩
  · exact ⟨1, by push_cast; ring⟩
  · exact ⟨0, by push_cast; ring⟩

/-- After `n` calls the counter has moved by `n` increments plus a whole number of cycles. -/
theorem advanceSteps_cycles (inc : R) (n : Nat) (c : R) :
    ∃ z : ℤ, advanceSteps inc n c = c + (n : R) * inc + (z : R) := by
  induction n with
  | zero => exact ⟨0, by simp [advanceSteps]⟩
  | succ k ih =>
    obtain ⟨z, hz⟩ := ih
    obtain ⟨w, hw⟩ := advanceAndCheckWrapModulo_cycles (advanceSteps inc k c) inc
    refine ⟨z + w, ?_⟩
    show (advanceAndCheckWrapModulo (advanceSteps inc k c) inc).2 = _
    rw [hw, hz]
    push_cast
    ring

/-- Forward motion: a counter in `[0,1)` stays in `[0,1)`. -/
theorem advance_forward_range (c inc : R) (hc0 : 0 ≤ c) (hc1 : c < 1) (hi0 : 0 ≤ inc)
    (hi1 : inc < 1) :
    0 ≤ (advanceAndCheckWrapModulo c inc).2 ∧ (advanceAndCheckWrapModulo c inc).2 < 1 := by
  rw [advanceAndCheckWrapModulo_eq]
  split_ifs with h1 h2
  · have := h1.2
    constructor <;> dsimp only <;> linarith
  · exact absurd h2.1 (not_lt.mpr hi0)
  · dsimp only
    refine ⟨by linarith, ?_⟩
    rcases hi0.lt_or_eq with hpos | hzero
    · have := not_and.mp h1 hpos
      linarith
    · linarith

/-- Reverse motion: a counter in `[0,1]` is taken into `(0,1]`. -/
theorem advance_reverse_range (c inc : R) (hc0 : 0 ≤ c) (hc1 : c ≤ 1) (hi0 : -1 < inc)
    (hi1 : inc < 0) :
    0 < (advanceAndCheckWrapModulo c inc).2 ∧ (advanceAndCheckWrapModulo c inc).2 ≤ 1 := by
  rw [advanceAndCheckWrapModulo_eq]
  split_ifs with h1 h2
  · exact absurd h1.1 (not_lt.mpr hi1.le)
  · have := h2.2
    constructor <;> dsimp only <;> linarith
  · have := not_and.mp h2 hi1
    constructor <;> dsimp only <;> linarith

theorem advanceSteps_forward_range (inc : R) (hi0 : 0 ≤ inc) (hi1 : inc < 1) (n : Nat) :
    0 ≤ advanceSteps inc n 0 ∧ advanceSteps inc n 0 < 1 := by
  induction n with
  | zero => simp [advanceSteps]
  | succ k ih => exact advance_forward_range _ inc ih.1 ih.2 hi0 hi1

theorem advanceSteps_reverse_range (inc : R) (hi0 : -1 < inc) (hi1 : inc < 0) (n : Nat) :
    0 < advanceSteps inc (n + 1) 0 ∧ advanceSteps inc (n + 1) 0 ≤ 1 := by
  induction n with
  | zero => exact advance_reverse_range 0 inc le_rfl zero_le_one hi0 hi1
  | succ k ih => exact advance_reverse_range _ inc ih.1.le ih.2 hi0 hi1

/-- Without a wrap so far: while `(n + 1) * inc < 1`, the first `n + 1` forward calls from
the counter 0 only add the increment. -/
theorem advanceSteps_before_wrap (inc : R) (hi0 : 0 < inc) (n : Nat)
    (hn : (n : R) * inc < 1) : advanceSteps inc n 0 = (n : R) * inc := by
  induction n with
  | zero => simp [advanceSteps]
  | succ k ih =>
    have hk : (k : R) * inc < 1 := by
      push_cast at hn
      nlinarith
    have hstep : ¬ (0 < inc ∧ 1 ≤ advanceSteps inc k 0 + inc) := by
      rw [ih hk]
      push_cast at hn
      intro h
      linarith [h.2]
    show (advanceAndCheckWrapModulo (advanceSteps inc k 0) inc).2 = _
    rw [advanceAndCheckWrapModulo_eq, if_neg hstep,
      if_neg (fun h => absurd h.1 (not_lt.mpr hi0.le)), ih hk]
    push_cast
    ring

/-! ## The parabolic sine, with the literals evaluated -/

theorem parabolicSine_eq (kPi a : R) :
    parabolicSine kPi a =
      9 / 40 * ((4 / kPi * a + -4 / (kPi * kPi) * a * abs a) *
            abs (4 / kPi * a + -4 / (kPi * kPi) * a * abs a) -
          (4 / kPi * a + -4 / (kPi * kPi) * a * abs a)) +
        (4 / kPi * a + -4 / (kPi * kPi) * a * abs a) := by
  have h4 : (4.0 : R) = 4 := by norm_num
  have hP : (0.225 : R) = 9 / 40 := by norm_num
  simp only [parabolicSine, B, C, P, h4, hP]

/-- The parabolic sine is odd, whatever the value of `kPi`. -/
theorem parabolicSine_neg (kPi a : R) : parabolicSine kPi (-a) = -parabolicSine kPi a := by
  have hy : 4 / kPi * -a + -4 / (kPi * kPi) * -a * abs a =
      -(4 / kPi * a + -4 / (kPi * kPi) * a * abs a) := by ring
  rw [parabolicSine_eq, parabolicSine_eq, abs_neg, hy, abs_neg]
  ring

/-- On the upper half `0 ≤ a ≤ kPi` the parabolic sine is a polynomial in
`q = 4 u (1 - u)`, where `u = a / kPi`. -/
theorem parabolicSine_upper_half (kPi a : R) (hpi : 0 < kPi) (ha0 : 0 ≤ a) (ha1 : a ≤ kPi) :
    parabolicSine kPi a =
      9 / 40 * (4 * (a / kPi) * (1 - a / kPi)) ^ 2 + 31 / 40 * (4 * (a / kPi) * (1 - a / kPi)) := by
  have hu0 : 0 ≤ a / kPi := div_nonneg ha0 hpi.le
  have hu1 : a / kPi ≤ 1 := (div_le_one hpi).mpr ha1
  have hy : 4 / kPi * a + -4 / (kPi * kPi) * a * abs a = 4 * (a / kPi) * (1 - a / kPi) := by
    rw [abs_of_nonneg ha0]
    field_simp
    ring
  have hq : 0 ≤ 4 * (a / kPi) * (1 - a / kPi) :=
    mul_nonneg (mul_nonneg (by norm_num) hu0) (by linarith)
  rw [parabolicSine_eq, hy, abs_of_nonneg hq]
  ring

/-- On the upper half `0 ≤ a ≤ kPi` the parabolic sine lies in `[0,1]`. -/
theorem parabolicSine_upper_half_range (kPi a : R) (hpi : 0 < kPi) (ha0 : 0 ≤ a)
    (ha1 : a ≤ kPi) : 0 ≤ parabolicSine kPi a ∧ parabolicSine kPi a ≤ 1 := by
  have hu0 : 0 ≤ a / kPi := div_nonneg ha0 hpi.le
  have hu1 : a / kPi ≤ 1 := (div_le_one hpi).mpr ha1
  have hq0 : 0 ≤ 4 * (a / kPi) * (1 - a / kPi) :=
    mul_nonneg (mul_nonneg (by norm_num) hu0) (by linarith)
  have hq1 : 4 * (a / kPi) * (1 - a / kPi) ≤ 1 := by nlinarith [sq_nonneg (2 * (a / kPi) - 1)]
  rw [parabolicSine_upper_half kPi a hpi ha0 ha1]
  constructor
  · positivity
  · nlinarith

/-! ## Binary64 values as rationals -/

theorem F64.toRat_sub (a b : Int) : F64.toRat (a - b) = F64.toRat a - F64.toRat b := by
  simp only [F64.toRat]
  push_cast
  ring

theorem F64.toRat_quarter : F64.toRat F64.quarter = 1 / 4 := by
  simp only [F64.toRat, F64.quarter]
  norm_num

/-- Rounding keeps integers of at most 53 bits, and sends a tie to the even neighbour:
`2^53 + 1` goes down to `2^53` and `2^53 + 3` goes up to `2^53 + 4`, with either sign. -/
theorem F64.round_ties_to_even :
    F64.round (((2 ^ 53 - 1 : Nat) : Int)) = ((2 ^ 53 - 1 : Nat) : Int) ∧
      F64.round (((2 ^ 53 + 1 : Nat) : Int)) = ((2 ^ 53 : Nat) : Int) ∧
      F64.round (((2 ^ 53 + 3 : Nat) : Int)) = ((2 ^ 53 + 4 : Nat) : Int) ∧
      F64.round (-((2 ^ 53 + 1 : Nat) : Int)) = -((2 ^ 53 : Nat) : Int) := by
  decide!

/-- The constant `F64.tenth` is a double, and no double is nearer to 1/10: its spacing there
is `2^-56` (`2^1018` units) and it is within half of that of 1/10. -/
theorem F64.tenth_nearest :
    F64.round F64.tenth = F64.tenth ∧
      10 * F64.tenth - F64.one ≤ 5 * ((2 ^ 1018 : Nat) : Int) ∧
      F64.one - 10 * F64.tenth ≤ 5 * ((2 ^ 1018 : Nat) : Int) := by
  decide!

/-- On binary64 values a reverse step can reach 1.0 without landing on 0: from the counter
0.0 the increment `-2^-60` gives the sum `-2^-60`, and `-2^-60 + 1.0` rounds to 1.0. -/
theorem advanceAndCheckWrapModuloF64_rounds_to_one :
    advanceAndCheckWrapModuloF64 0 (-((2 ^ 1014 : Nat) : Int)) = (true, F64.one) := by
  decide!

/-! ## Bounds on the real sine -/

/-- A function on the reals that vanishes at 0 and has a derivative that is nonnegative on
`[0, ∞)` is nonnegative on `[0, ∞)`. -/
theorem nonneg_of_hasDerivAt_nonneg (f g : ℝ → ℝ) (h0 : f 0 = 0)
    (hd : ∀ x, HasDerivAt f (g x) x) (hg : ∀ x, 0 ≤ x → 0 ≤ g x) (x : ℝ) (hx : 0 ≤ x) :
    0 ≤ f x := by
  have hmono : MonotoneOn f (Set.Ici 0) := by
    apply monotoneOn_of_deriv_nonneg (convex_Ici 0)
    · exact (continuous_iff_continuousAt.mpr (fun y => (hd y).continuousAt)).continuousOn
    · exact fun y _ => (hd y).differentiableAt.differentiableWithinAt
    · intro y hy
      rw [(hd y).deriv]
      rw [interior_Ici] at hy
      exact hg y hy.le
  have := hmono (Set.mem_Ici.mpr le_rfl) (Set.mem_Ici.mpr hx) hx
  rwa [h0] at this

/-- The derivative of a monomial divided by a constant. -/
theorem hasDerivAt_pow_div (n : ℕ) (c x : ℝ) :
    HasDerivAt (fun y : ℝ => y ^ (n + 1) / c) ((n + 1 : ℝ) * x ^ n / c) x := by
  have := (hasDerivAt_pow (n + 1) x).div_const c
  simpa using this

/-- Taylor bounds of sine and cosine on `[0, ∞)`, each obtained from the one before it. -/
theorem sin_ge_taylor3 (x : ℝ) (hx : 0 ≤ x) : x - x ^ 3 / 6 ≤ Real.sin x := by
  have hd : ∀ y : ℝ, HasDerivAt (fun y => Real.sin y - (y - y ^ 3 / 6))
      (Real.cos y - (1 - y ^ 2 / 2)) y := by
    intro y
    have h3 : HasDerivAt (fun y : ℝ => y ^ 3 / 6) (y ^ 2 / 2) y := by
      convert hasDerivAt_pow_div 2 6 y using 1
      ring
    exact (Real.hasDerivAt_sin y).sub ((hasDerivAt_id' y).sub h3)
  have := nonneg_of_hasDerivAt_nonneg _ _ (by simp) hd
    (fun y _ => by linarith [Real.one_sub_sq_div_two_le_cos (x := y)]) x hx
  linarith

theorem cos_le_taylor4 (x : ℝ) (hx : 0 ≤ x) : Real.cos x ≤ 1 - x ^ 2 / 2 + x ^ 4 / 24 := by
  have hd : ∀ y : ℝ, HasDerivAt (fun y => 1 - y ^ 2 / 2 + y ^ 4 / 24 - Real.cos y)
      (0 - y + y ^ 3 / 6 - -Real.sin y) y := by
    intro y
    have h2 : HasDerivAt (fun y : ℝ => y ^ 2 / 2) y y := by
      convert hasDerivAt_pow_div 1 2 y using 1
      ring
    have h4 : HasDerivAt (fun y : ℝ => y ^ 4 / 24) (y ^ 3 / 6) y := by
      convert hasDerivAt_pow_div 3 24 y using 1
      ring
    exact ((((hasDerivAt_const y (1 : ℝ)).sub h2).add h4).sub (Real.hasDerivAt_cos y))
  have := nonneg_of_hasDerivAt_nonneg _ _ (by simp) hd
    (fun y hy => by linarith [sin_ge_taylor3 y hy]) x hx
  linarith

theorem sin_le_taylor5 (x : ℝ) (hx : 0 ≤ x) :
    Real.sin x ≤ x - x ^ 3 / 6 + x ^ 5 / 120 := by
  have hd : ∀ y : ℝ, HasDerivAt (fun y => y - y ^ 3 / 6 + y ^ 5 / 120 - Real.sin y)
      (1 - y ^ 2 / 2 + y ^ 4 / 24 - Real.cos y) y := by
    intro y
    have h3 : HasDerivAt (fun y : ℝ => y ^ 3 / 6) (y ^ 2 / 2) y := by
      convert hasDerivAt_pow_div 2 6 y using 1
      ring
    have h5 : HasDerivAt (fun y : ℝ => y ^ 5 / 120) (y ^ 4 / 24) y := by
      convert hasDerivAt_pow_div 4 120 y using 1
      ring
    exact ((((hasDerivAt_id' y).sub h3).add h5).sub (Real.hasDerivAt_sin y))
  have := nonneg_of_hasDerivAt_nonneg _ _ (by simp) hd
    (fun y hy => by linarith [cos_le_taylor4 y hy]) x hx
  linarith

theorem cos_ge_taylor6 (x : ℝ) (hx : 0 ≤ x) :
    1 - x ^ 2 / 2 + x ^ 4 / 24 - x ^ 6 / 720 ≤ Real.cos x := by
  have hd : ∀ y : ℝ, HasDerivAt
      (fun y => Real.cos y - (1 - y ^ 2 / 2 + y ^ 4 / 24 - y ^ 6 / 720))
      (-Real.sin y - (0 - y + y ^ 3 / 6 - y ^ 5 / 120)) y := by
    intro y
    have h2 : HasDerivAt (fun y : ℝ => y ^ 2 / 2) y y := by
      convert hasDerivAt_pow_div 1 2 y using 1
      ring
    have h4 : HasDerivAt (fun y : ℝ => y ^ 4 / 24) (y ^ 3 / 6) y := by
      convert hasDerivAt_pow_div 3 24 y using 1
      ring
    have h6 : HasDerivAt (fun y : ℝ => y ^ 6 / 720) (y ^ 5 / 120) y := by
      convert hasDerivAt_pow_div 5 720 y using 1
      ring
    exact (Real.hasDerivAt_cos y).sub
      ((((hasDerivAt_const y (1 : ℝ)).sub h2).add h4).sub h6)
  have := nonneg_of_hasDerivAt_nonneg _ _ (by simp) hd
    (fun y hy => by linarith [sin_le_taylor5 y hy]) x hx
  linarith

theorem sin_ge_taylor7 (x : ℝ) (hx : 0 ≤ x) :
    x - x ^ 3 / 6 + x ^ 5 / 120 - x ^ 7 / 5040 ≤ Real.sin x := by
  have hd : ∀ y : ℝ, HasDerivAt
      (fun y => Real.sin y - (y - y ^ 3 / 6 + y ^ 5 / 120 - y ^ 7 / 5040))
      (Real.cos y - (1 - y ^ 2 / 2 + y ^ 4 / 24 - y ^ 6 / 720)) y := by
    intro y
    have h3 : HasDerivAt (fun y : ℝ => y ^ 3 / 6) (y ^ 2 / 2) y := by
      convert hasDerivAt_pow_div 2 6 y using 1
      ring
    have h5 : HasDerivAt (fun y : ℝ => y ^ 5 / 120) (y ^ 4 / 24) y := by
      convert hasDerivAt_pow_div 4 120 y using 1
      ring
    have h7 : HasDerivAt (fun y : ℝ => y ^ 7 / 5040) (y ^ 6 / 720) y := by
      convert hasDerivAt_pow_div 6 5040 y using 1
      ring
    exact (Real.hasDerivAt_sin y).sub ((((hasDerivAt_id' y).sub h3).add h5).sub h7)
  have := nonneg_of_hasDerivAt_nonneg _ _ (by simp) hd
    (fun y hy => by linarith [cos_ge_taylor6 y hy]) x hx
  linarith

/-- With `3.1415 < pi < 3.1416`, the degree-5 Taylor polynomial of `sin (pi u)` stays below
the parabolic sine plus 0.02 on `0 ≤ u ≤ 1/2`. -/
theorem poly_upper (u : ℝ) (hu0 : 0 ≤ u) (hu1 : u ≤ 1 / 2) :
    31416 / 10000 * u - (31415 / 10000) ^ 3 * u ^ 3 / 6 + (31416 / 10000) ^ 5 * u ^ 5 / 120 <
      31 / 10 * u + 1 / 2 * u ^ 2 - 36 / 5 * u ^ 3 + 18 / 5 * u ^ 4 + 1 / 50 := by
  have h1 : 0 ≤ 1 - 2 * u := by linarith
  nlinarith [pow_nonneg hu0 5, mul_nonneg (pow_nonneg hu0 4) h1,
    mul_nonneg (pow_nonneg hu0 3) (pow_nonneg h1 2),
    mul_nonneg (pow_nonneg hu0 2) (pow_nonneg h1 3), mul_nonneg hu0 (pow_nonneg h1 4),
    pow_nonneg h1 5]

/-- With `3.1415 < pi < 3.1416`, the degree-7 Taylor polynomial of `sin (pi u)` stays above
the parabolic sine minus 0.02 on `0 ≤ u ≤ 1/2`. -/
theorem poly_lower (u : ℝ) (hu0 : 0 ≤ u) (hu1 : u ≤ 1 / 2) :
    31 / 10 * u + 1 / 2 * u ^ 2 - 36 / 5 * u ^ 3 + 18 / 5 * u ^ 4 - 1 / 50 <
      31415 / 10000 * u - (31416 / 10000) ^ 3 * u ^ 3 / 6 +
        (31415 / 10000) ^ 5 * u ^ 5 / 120 - (31416 / 10000) ^ 7 * u ^ 7 / 5040 := by
  have h1 : 0 ≤ 1 - 2 * u := by linarith
  nlinarith [pow_nonneg hu0 7, mul_nonneg (pow_nonneg hu0 6) h1,
    mul_nonneg (pow_nonneg hu0 5) (pow_nonneg h1 2),
    mul_nonneg (pow_nonneg hu0 4) (pow_nonneg h1 3),
    mul_nonneg (pow_nonneg hu0 3) (pow_nonneg h1 4),
    mul_nonneg (pow_nonneg hu0 2) (pow_nonneg h1 5), mul_nonneg hu0 (pow_nonneg h1 6),
    pow_nonneg h1 7]

/-- The parabolic sine is symmetric about `kPi / 2` on the upper half. -/
theorem parabolicSine_reflect (kPi a : R) (hpi : 0 < kPi) (ha0 : 0 ≤ a) (ha1 : a ≤ kPi) :
    parabolicSine kPi (kPi - a) = parabolicSine kPi a := by
  have hdiv : (kPi - a) / kPi = 1 - a / kPi := by
    rw [sub_div, div_self hpi.ne.symm]
  rw [parabolicSine_upper_half kPi (kPi - a) hpi (by linarith) (by linarith),
    parabolicSine_upper_half kPi a hpi ha0 ha1, hdiv]
  ring

/-- On the first quarter `0 ≤ a ≤ pi / 2` the parabolic sine is within 1/50 of the sine. -/
theorem parabolicSine_near_sin_quarter (a : ℝ) (ha0 : 0 ≤ a) (ha1 : a ≤ Real.pi / 2) :
    |parabolicSine Real.pi a - Real.sin a| < 1 / 50 := by
  have hpi := Real.pi_pos
  have hlo : (31415 / 10000 : ℝ) < Real.pi := by
    have := Real.pi_gt_d4
    norm_num at this ⊢
    linarith
  have hhi : Real.pi < (31416 / 10000 : ℝ) := by
    have := Real.pi_lt_d4
    norm_num at this ⊢
    linarith
  have hu0 : 0 ≤ a / Real.pi := div_nonneg ha0 hpi.le
  have hu1 : a / Real.pi ≤ 1 / 2 := by
    rw [div_le_iff₀ hpi]
    linarith
  have hau : a = Real.pi * (a / Real.pi) := by
    field_simp
  have hform : parabolicSine Real.pi a =
      31 / 10 * (a / Real.pi) + 1 / 2 * (a / Real.pi) ^ 2 - 36 / 5 * (a / Real.pi) ^ 3 +
        18 / 5 * (a / Real.pi) ^ 4 := by
    rw [parabolicSine_upper_half Real.pi a hpi ha0 (by linarith)]
    ring
  have hlow : 31415 / 10000 * (a / Real.pi) ≤ a := by
    nth_rewrite 2 [hau]
    exact mul_le_mul_of_nonneg_right hlo.le hu0
  have hupp : a ≤ 31416 / 10000 * (a / Real.pi) := by
    nth_rewrite 1 [hau]
    exact mul_le_mul_of_nonneg_right hhi.le hu0
  have hlow0 : 0 ≤ 31415 / 10000 * (a / Real.pi) := mul_nonneg (by norm_num) hu0
  have h3l := pow_le_pow_left₀ hlow0 hlow 3
  have h5l := pow_le_pow_left₀ hlow0 hlow 5
  have h3u := pow_le_pow_left₀ ha0 hupp 3
  have h5u := pow_le_pow_left₀ ha0 hupp 5
  have h7u := pow_le_pow_left₀ ha0 hupp 7
  rw [mul_pow] at h3l h5l h3u h5u h7u
  have hsu := sin_le_taylor5 a ha0
  have hsl := sin_ge_taylor7 a ha0
  have hpu := poly_upper (a / Real.pi) hu0 hu1
  have hpl := poly_lower (a / Real.pi) hu0 hu1
  rw [hform, abs_lt]
  constructor
  · linarith
  · linarith

/-- On the upper half `0 ≤ a ≤ pi` the parabolic sine is within 1/50 of the sine. -/
theorem parabolicSine_near_sin_upper_half (a : ℝ) (ha0 : 0 ≤ a) (ha1 : a ≤ Real.pi) :
    |parabolicSine Real.pi a - Real.sin a| < 1 / 50 := by
  rcases le_total a (Real.pi / 2) with hq | hq
  · exact parabolicSine_near_sin_quarter a ha0 hq
  · have := parabolicSine_near_sin_quarter (Real.pi - a) (by linarith) (by linarith)
    rwa [parabolicSine_reflect Real.pi a Real.pi_pos ha0 ha1, Real.sin_pi_sub] at this

/-- Note events leave the sample rate, the phase increment and the parameter block alone. -/
theorem applyNoteEvent_frame (s : SynthLFO R) (e : NoteEvent R) :
    (applyNoteEvent s e).sampleRate = s.sampleRate ∧
      (applyNoteEvent s e).phaseInc = s.phaseInc ∧
      (applyNoteEvent s e).parameters = s.parameters := by
  cases e with
  | noteOn midiPitch midiNoteNumber midiNoteVelocity =>
    by_cases hmode : s.parameters.mode = LFOMode.kSync ∨ s.parameters.mode = LFOMode.kOneShot
    · simp [applyNoteEvent, doNoteOn, if_pos hmode]
    · simp [applyNoteEvent, doNoteOn, if_neg hmode]
  | noteOff midiPitch midiNoteNumber midiNoteVelocity => exact ⟨rfl, rfl, rfl⟩

theorem applyNoteEvents_frame (events : List (NoteEvent R)) (s : SynthLFO R) :
    (applyNoteEvents s events).sampleRate = s.sampleRate ∧
      (applyNoteEvents s events).phaseInc = s.phaseInc ∧
      (applyNoteEvents s events).parameters = s.parameters := by
  induction events generalizing s with
  | nil => exact ⟨rfl, rfl, rfl⟩
  | cons e rest ih =>
    obtain ⟨h1, h2, h3⟩ := ih (applyNoteEvent s e)
    obtain ⟨g1, g2, g3⟩ := applyNoteEvent_frame s e
    exact ⟨h1.trans g1, h2.trans g2, h3.trans g3⟩

/-! ## `reset` -/

/-- C1: from every prior state, for every sample rate `sr` and every frequency parameter,
`reset(sr)` leaves `sampleRate = sr`, `phaseInc = frequency_Hz / sr`, `modCounter = 0.0`
and `modCounterQP = 0.25`, whatever the counters held before. -/
theorem reset_timebase (s : SynthLFO R) (sr : R) :
    (s.reset sr).2.sampleRate = sr ∧
      (s.reset sr).2.phaseInc = s.parameters.frequency_Hz / sr ∧
      (s.reset sr).2.modCounter = 0 ∧
      (s.reset sr).2.modCounterQP = 1 / 4 := by
  refine ⟨rfl, rfl, ?_, ?_⟩
  · show (0.0 : R) = 0
    exact lit_zero
  · show (0.25 : R) = 1 / 4
    exact lit_quarter

/-- C2, as stated, fails: `reset` applied to a state whose one-shot flag is set returns a
state whose one-shot flag is still set. -/
theorem reset_renderComplete_still_set :
    heldOneShot.renderComplete = true ∧
      ¬ ((heldOneShot.reset 44100).2.renderComplete = false) := by
  constructor
  · rfl
  · simp [reset, heldOneShot]

/-- C2, amended: `reset(sr)` does not write the one-shot flag; for every prior state and
every sample rate `renderComplete` after the call is what it was before the call. -/
theorem reset_renderComplete_unchanged (s : SynthLFO R) (sr : R) :
    (s.reset sr).2.renderComplete = s.renderComplete := rfl

/-! ## `doNoteOn` and `doNoteOff` -/

/-- C3: when the mode parameter is `kSync` or `kOneShot`, `doNoteOn` leaves
`modCounter = 0.0` and `modCounterQP = 0.25`, for every pitch, note number, velocity and
prior state. -/
theorem doNoteOn_sync_or_oneShot_restarts (s : SynthLFO R) (midiPitch : R)
    (midiNoteNumber midiNoteVelocity : Nat)
    (hmode : s.parameters.mode = LFOMode.kSync ∨ s.parameters.mode = LFOMode.kOneShot) :
    (s.doNoteOn midiPitch midiNoteNumber midiNoteVelocity).2.modCounter = 0 ∧
      (s.doNoteOn midiPitch midiNoteNumber midiNoteVelocity).2.modCounterQP = 1 / 4 := by
  simp only [doNoteOn, if_pos hmode]
  exact ⟨lit_zero, lit_quarter⟩

/-- C3 at the state `heldOneShot` (mode `kOneShot`, counters at 3/8 and 5/8). -/
theorem doNoteOn_sync_or_oneShot_restarts_witness :
    (heldOneShot.parameters.mode = LFOMode.kSync ∨
        heldOneShot.parameters.mode = LFOMode.kOneShot) ∧
      heldOneShot.modCounter = 3 / 8 ∧ heldOneShot.modCounterQP = 5 / 8 ∧
      (heldOneShot.doNoteOn 60 60 100).2.modCounter = 0 ∧
      (heldOneShot.doNoteOn 60 60 100).2.modCounterQP = 1 / 4 :=
  ⟨Or.inr rfl, rfl, rfl,
    doNoteOn_sync_or_oneShot_restarts heldOneShot 60 60 100 (Or.inr rfl)⟩

/-- C4: when the mode parameter is `kFreeRun`, `doNoteOn` does not reset the modulo
counters: `modCounter` and `modCounterQP` after the call equal their values before it. -/
theorem doNoteOn_freeRun_keeps_counters (s : SynthLFO R) (midiPitch : R)
    (midiNoteNumber midiNoteVelocity : Nat) (hmode : s.parameters.mode = LFOMode.kFreeRun) :
    (s.doNoteOn midiPitch midiNoteNumber midiNoteVelocity).2.modCounter = s.modCounter ∧
      (s.doNoteOn midiPitch midiNoteNumber midiNoteVelocity).2.modCounterQP =
        s.modCounterQP := by
  simp [doNoteOn, hmode]

/-- C4 at the state `freeRunning` (mode `kFreeRun`, counters at 3/8 and 5/8). -/
theorem doNoteOn_freeRun_keeps_counters_witness :
    freeRunning.parameters.mode = LFOMode.kFreeRun ∧
      (freeRunning.doNoteOn 60 60 100).2.modCounter = 3 / 8 ∧
      (freeRunning.doNoteOn 60 60 100).2.modCounterQP = 5 / 8 :=
  ⟨rfl, doNoteOn_freeRun_keeps_counters freeRunning 60 60 100 rfl⟩

/-- C5: in every mode and from every prior state, `doNoteOn` clears the one-shot flag,
resets the delay timer (zero elapsed time) and sets the sample-and-hold counter to the
reset value `-1`. -/
theorem doNoteOn_clears_restart_state (s : SynthLFO R) (midiPitch : R)
    (midiNoteNumber midiNoteVelocity : Nat) :
    (s.doNoteOn midiPitch midiNoteNumber midiNoteVelocity).2.renderComplete = false ∧
      (s.doNoteOn midiPitch midiNoteNumber midiNoteVelocity).2.lfo1Timer =
        s.lfo1Timer.resetTimer ∧
      (s.doNoteOn midiPitch midiNoteNumber midiNoteVelocity).2.lfo1Timer.elapsed = 0 ∧
      (s.doNoteOn midiPitch midiNoteNumber midiNoteVelocity).2.randomSHCounter = -1 := by
  by_cases hmode : s.parameters.mode = LFOMode.kSync ∨ s.parameters.mode = LFOMode.kOneShot
  · simp [doNoteOn, if_pos hmode, Timer.resetTimer]
  · simp [doNoteOn, if_neg hmode, Timer.resetTimer]

omit [LinearOrderedField R] in
/-- C6: `doNoteOff` makes no state change: the state after the call, every field of it, is
the state before the call, for every state, mode and note arguments. -/
theorem doNoteOff_no_state_change (s : SynthLFO R) (midiPitch : R)
    (midiNoteNumber midiNoteVelocity : Nat) :
    (s.doNoteOff midiPitch midiNoteNumber midiNoteVelocity).2 = s := rfl

/-! ## The advance-and-wrap step -/

/-- C7, as stated, fails: from the counter 1/4 (in `[0,1)`) a step with the increment -1/4
(in `(-1,1)`) lands on 0 and is wrapped to 1, which is not below 1. -/
theorem advanceAndCheckWrapModulo_reaches_one :
    (0 : ℚ) ≤ 1 / 4 ∧ (1 / 4 : ℚ) < 1 ∧ (-1 : ℚ) < -1 / 4 ∧ (-1 / 4 : ℚ) < 1 ∧
      ¬ (0 ≤ (advanceAndCheckWrapModulo (1 / 4 : ℚ) (-1 / 4)).2 ∧
          (advanceAndCheckWrapModulo (1 / 4 : ℚ) (-1 / 4)).2 < 1) := by
  rw [advanceAndCheckWrapModulo_eq]
  norm_num

/-- C7, amended: for every counter `c` with `0 ≤ c < 1` and every increment with
`-1 < inc < 1`, the counter after the step satisfies `0 ≤ c' ≤ 1`; it satisfies `c' < 1`
whenever `inc ≥ 0`; and a reverse step (`inc < 0`) that lands exactly on 0 returns `true`
and leaves the counter at 1.0. -/
theorem advanceAndCheckWrapModulo_range (c inc : R) (hc0 : 0 ≤ c) (hc1 : c < 1)
    (hi0 : -1 < inc) (hi1 : inc < 1) :
    0 ≤ (advanceAndCheckWrapModulo c inc).2 ∧ (advanceAndCheckWrapModulo c inc).2 ≤ 1 ∧
      (0 ≤ inc → (advanceAndCheckWrapModulo c inc).2 < 1) ∧
      (inc < 0 → c + inc = 0 → advanceAndCheckWrapModulo c inc = (true, 1)) := by
  have hrange : 0 ≤ (advanceAndCheckWrapModulo c inc).2 ∧
      (advanceAndCheckWrapModulo c inc).2 ≤ 1 := by
    rcases le_or_lt 0 inc with hpos | hneg
    · obtain ⟨h0, h1⟩ := advance_forward_range c inc hc0 hc1 hpos hi1
      exact ⟨h0, h1.le⟩
    · obtain ⟨h0, h1⟩ := advance_reverse_range c inc hc0 hc1.le hi0 hneg
      exact ⟨h0.le, h1⟩
  refine ⟨hrange.1, hrange.2, ?_, ?_⟩
  · intro hpos
    exact (advance_forward_range c inc hc0 hc1 hpos hi1).2
  · intro hneg hzero
    rw [advanceAndCheckWrapModulo_eq, if_neg (fun h => absurd h.1 (not_lt.mpr hneg.le)),
      if_pos ⟨hneg, hzero.le⟩, hzero, zero_add]

/-- C7 (amended) at the counter 3/4 and the increment 1/2. -/
theorem advanceAndCheckWrapModulo_range_witness :
    ((0 : ℚ) ≤ 3 / 4 ∧ (3 / 4 : ℚ) < 1 ∧ (-1 : ℚ) < 1 / 2 ∧ (1 / 2 : ℚ) < 1) ∧
      0 ≤ (advanceAndCheckWrapModulo (3 / 4 : ℚ) (1 / 2)).2 ∧
      (advanceAndCheckWrapModulo (3 / 4 : ℚ) (1 / 2)).2 ≤ 1 ∧
      ((0 : ℚ) ≤ 1 / 2 → (advanceAndCheckWrapModulo (3 / 4 : ℚ) (1 / 2)).2 < 1) ∧
      ((1 / 2 : ℚ) < 0 → (3 / 4 : ℚ) + 1 / 2 = 0 →
        advanceAndCheckWrapModulo (3 / 4 : ℚ) (1 / 2) = (true, 1)) :=
  ⟨by norm_num,
    advanceAndCheckWrapModulo_range (3 / 4) (1 / 2) (by norm_num) (by norm_num) (by norm_num)
      (by norm_num)⟩

/-- C8, as stated, fails: with the increment -1/2 (in `(-1,1)`), two steps from the counter 0
give the counter 1, while the fractional part of `2 * (-1/2)` is 0. -/
theorem advanceSteps_not_fract :
    (-1 : ℚ) < -1 / 2 ∧ (-1 / 2 : ℚ) < 1 ∧
      advanceSteps (-1 / 2 : ℚ) 2 0 ≠ Int.fract (((2 : ℕ) : ℚ) * (-1 / 2)) := by
  have hf : Int.fract (((2 : ℕ) : ℚ) * (-1 / 2)) = 0 := by
    rw [Int.fract_eq_iff]
    exact ⟨le_rfl, zero_lt_one, -1, by norm_num⟩
  have hs : advanceSteps (-1 / 2 : ℚ) 2 0 = 1 := by
    simp only [advanceSteps, advanceAndCheckWrapModulo_eq]
    norm_num
  rw [hf, hs]
  norm_num

/-- C8, amended: in exact arithmetic, for every `N` and every increment `D` with
`-1 < D < 1`, `N` steps from the counter 0 give the fractional part of `N * D`, except
that for `D < 0`, `N ≥ 1` and `N * D` a whole number they give 1. -/
theorem advanceSteps_from_zero [FloorRing R] (n : Nat) (d : R) (hd0 : -1 < d) (hd1 : d < 1) :
    advanceSteps d n 0 =
      if d < 0 ∧ 0 < n ∧ Int.fract ((n : R) * d) = 0 then 1 else Int.fract ((n : R) * d) := by
  obtain ⟨z, hz⟩ := advanceSteps_cycles d n 0
  rcases le_or_lt 0 d with hpos | hneg
  · obtain ⟨h0, h1⟩ := advanceSteps_forward_range d hpos hd1 n
    rw [if_neg (fun h => absurd h.1 (not_lt.mpr hpos))]
    symm
    rw [Int.fract_eq_iff]
    exact ⟨h0, h1, -z, by rw [hz]; push_cast; ring⟩
  · cases n with
    | zero => simp [advanceSteps]
    | succ k =>
      obtain ⟨h0, h1⟩ := advanceSteps_reverse_range d hd0 hneg k
      by_cases hf : Int.fract (((k + 1 : ℕ) : R) * d) = 0
      · rw [if_pos ⟨hneg, Nat.succ_pos k, hf⟩]
        obtain ⟨-, -, m, hm⟩ := Int.fract_eq_iff.mp hf
        have hc : advanceSteps d (k + 1) 0 = ((m + z : ℤ) : R) := by
          rw [hz, ← sub_zero (((k + 1 : ℕ) : R) * d), hm]
          push_cast
          ring
        rw [hc] at h0 h1 ⊢
        have hlo : 0 < m + z := by exact_mod_cast h0
        have hhi : m + z ≤ 1 := by exact_mod_cast h1
        have : m + z = 1 := le_antisymm hhi hlo
        rw [this]
        norm_num
      · rw [if_neg (fun h => hf h.2.2)]
        have hne : advanceSteps d (k + 1) 0 ≠ 1 := by
          intro h
          apply hf
          rw [Int.fract_eq_iff]
          refine ⟨le_rfl, zero_lt_one, 1 - z, ?_⟩
          rw [h] at hz
          push_cast at hz ⊢
          linarith
        symm
        rw [Int.fract_eq_iff]
        exact ⟨h0.le, lt_of_le_of_ne h1 hne, -z, by rw [hz]; push_cast; ring⟩

/-- C8 (amended) at four steps of the increment -1/4. -/
theorem advanceSteps_from_zero_witness :
    ((-1 : ℚ) < -1 / 4 ∧ (-1 / 4 : ℚ) < 1) ∧
      advanceSteps (-1 / 4 : ℚ) 4 0 =
        if (-1 / 4 : ℚ) < 0 ∧ 0 < 4 ∧ Int.fract (((4 : ℕ) : ℚ) * (-1 / 4)) = 0 then 1
        else Int.fract (((4 : ℕ) : ℚ) * (-1 / 4)) :=
  ⟨by norm_num, advanceSteps_from_zero 4 (-1 / 4) (by norm_num) (by norm_num)⟩

/-- C9, as stated, fails on the doubles of the code: from the counters 0.0 and 0.25, three
steps with the double nearest to 0.1 leave `modCounterQP - modCounter - 0.25 = -2^-53`,
which is not a whole number. -/
theorem quadrature_offset_binary64_drifts :
    F64.round F64.tenth = F64.tenth ∧
      F64.toRat (advanceStepsF64 F64.tenth 3 F64.quarter) -
          F64.toRat (advanceStepsF64 F64.tenth 3 0) - 1 / 4 = -1 / 2 ^ 53 ∧
      ¬ ∃ z : ℤ, F64.toRat (advanceStepsF64 F64.tenth 3 F64.quarter) -
          F64.toRat (advanceStepsF64 F64.tenth 3 0) - 1 / 4 = (z : ℚ) := by
  have hd : advanceStepsF64 F64.tenth 3 F64.quarter - advanceStepsF64 F64.tenth 3 0 -
      F64.quarter = -((2 ^ 1021 : Nat) : Int) := by decide!
  have hq : F64.toRat (advanceStepsF64 F64.tenth 3 F64.quarter) -
      F64.toRat (advanceStepsF64 F64.tenth 3 0) - 1 / 4 = -1 / 2 ^ 53 := by
    rw [← F64.toRat_quarter, ← F64.toRat_sub, ← F64.toRat_sub, hd]
    simp only [F64.toRat]
    norm_num
  refine ⟨by decide!, hq, ?_⟩
  rintro ⟨z, hz⟩
  rw [hq] at hz
  have h1 : (-1 : ℚ) < (z : ℚ) := by rw [← hz]; norm_num
  have h2 : (z : ℚ) < 0 := by rw [← hz]; norm_num
  have h3 : -1 < z := by exact_mod_cast h1
  have h4 : z < 0 := by exact_mod_cast h2
  omega

/-- C9, amended: in exact arithmetic the quadrature counter keeps a quarter-cycle offset from
the primary counter. From the counters that `reset` leaves (0.0 and 0.25), after `N` steps
applied to both with the same increment, `modCounterQP - modCounter - 0.25` is a whole
number, for every `N` and every increment. -/
theorem quadrature_offset (s : SynthLFO R) (sr inc : R) (n : Nat) :
    ∃ z : ℤ,
      advanceSteps inc n (s.reset sr).2.modCounterQP -
          advanceSteps inc n (s.reset sr).2.modCounter - 1 / 4 = (z : R) := by
  obtain ⟨hq, hp⟩ : (s.reset sr).2.modCounterQP = 1 / 4 ∧ (s.reset sr).2.modCounter = 0 :=
    ⟨lit_quarter, lit_zero⟩
  rw [hq, hp]
  obtain ⟨a, ha⟩ := advanceSteps_cycles inc n (1 / 4)
  obtain ⟨b, hb⟩ := advanceSteps_cycles inc n 0
  refine ⟨a - b, ?_⟩
  rw [ha, hb]
  push_cast
  ring

/-- C10: a zero phase increment freezes the counter. For every counter value `c`, in
range or not, `advanceAndCheckWrapModulo(c, 0)` and `checkAndWrapModulo(c, 0)` return
`false` and leave the counter at `c`, and so does any number of repeated calls. -/
theorem zero_increment_freezes (c : R) :
    advanceAndCheckWrapModulo c 0 = (false, c) ∧ checkAndWrapModulo c 0 = (false, c) ∧
      ∀ n : Nat, advanceSteps 0 n c = c ∧ checkSteps 0 n c = c := by
  have ha : ∀ x : R, advanceAndCheckWrapModulo x 0 = (false, x) := by
    intro x
    simp [advanceAndCheckWrapModulo_eq]
  have hk : ∀ x : R, checkAndWrapModulo x 0 = (false, x) := by
    intro x
    simp [checkAndWrapModulo_eq]
  refine ⟨ha c, hk c, ?_⟩
  intro n
  induction n with
  | zero => exact ⟨rfl, rfl⟩
  | succ k ih =>
    constructor
    · show (advanceAndCheckWrapModulo (advanceSteps 0 k c) 0).2 = c
      rw [ha, ih.1]
    · show (checkAndWrapModulo (checkSteps 0 k c) 0).2 = c
      rw [hk, ih.2]

/-! ## One-shot cycle length -/

/-- C11, as stated, fails on the doubles of the code: for `D` the double nearest to 0.1,
`ceil(1/D)` is 10, but from the counter 0.0 call number 10 returns `false` (the counter is
then `1 - 2^-53`, printed 0.9999999999999999) and call number 11 returns `true`. -/
theorem oneShot_first_wrap_binary64_late :
    F64.round F64.tenth = F64.tenth ∧ 0 < F64.toRat F64.tenth ∧ F64.toRat F64.tenth < 1 ∧
      ⌈1 / F64.toRat F64.tenth⌉₊ = 10 ∧
      wrapReportedF64 F64.tenth (10 - 1) 0 = false ∧
      advanceStepsF64 F64.tenth 10 0 = F64.one - ((2 ^ 1021 : Nat) : Int) ∧
      wrapReportedF64 F64.tenth 10 0 = true := by
  have hval : F64.toRat F64.tenth = 3602879701896397 / 2 ^ 55 := by
    simp only [F64.toRat, F64.tenth]
    norm_num
  refine ⟨by decide!, ?_, ?_, ?_, by decide!, by decide!, by decide!⟩
  · rw [hval]
    norm_num
  · rw [hval]
    norm_num
  · rw [hval, Nat.ceil_eq_iff (by norm_num)]
    norm_num

/-- C11, amended: in exact arithmetic, for every increment `D` with `0 < D < 1`, starting
from the counter 0.0 that a note-on leaves and calling `advanceAndCheckWrapModulo`
repeatedly, the first call that returns `true` is call number `ceil(1/D)`; every earlier
call returns `false`. -/
theorem oneShot_first_wrap [FloorRing R] (d : R) (hd0 : 0 < d) (_hd1 : d < 1) :
    1 ≤ ⌈1 / d⌉₊ ∧ wrapReported d (⌈1 / d⌉₊ - 1) 0 = true ∧
      ∀ j : Nat, j + 1 < ⌈1 / d⌉₊ → wrapReported d j 0 = false := by
  have hinv : 0 < 1 / d := one_div_pos.mpr hd0
  have hm : 1 ≤ ⌈1 / d⌉₊ := Nat.ceil_pos.mpr hinv
  have hbelow : ∀ j : Nat, j < ⌈1 / d⌉₊ → (j : R) * d < 1 := by
    intro j hj
    exact (lt_div_iff₀ hd0).mp (Nat.lt_ceil.mp hj)
  refine ⟨hm, ?_, ?_⟩
  · have hlast : ⌈1 / d⌉₊ - 1 < ⌈1 / d⌉₊ := Nat.sub_lt hm Nat.one_pos
    have hreach : 1 ≤ ((⌈1 / d⌉₊ - 1 : ℕ) : R) * d + d := by
      have hle : 1 ≤ (⌈1 / d⌉₊ : R) * d := (div_le_iff₀ hd0).mp (Nat.le_ceil (1 / d))
      have hcast : ((⌈1 / d⌉₊ - 1 : ℕ) : R) = (⌈1 / d⌉₊ : R) - 1 := by
        rw [Nat.cast_sub hm, Nat.cast_one]
      rw [hcast]
      linarith
    show (advanceAndCheckWrapModulo (advanceSteps d (⌈1 / d⌉₊ - 1) 0) d).1 = true
    rw [advanceSteps_before_wrap d hd0 _ (hbelow _ hlast), advanceAndCheckWrapModulo_eq,
      if_pos ⟨hd0, hreach⟩]
  · intro j hj
    have hnext : (j : R) * d + d < 1 := by
      have := hbelow (j + 1) hj
      push_cast at this
      linarith
    show (advanceAndCheckWrapModulo (advanceSteps d j 0) d).1 = false
    rw [advanceSteps_before_wrap d hd0 j (hbelow j (Nat.lt_of_succ_lt hj)),
      advanceAndCheckWrapModulo_eq, if_neg (fun h => absurd h.2 (not_le.mpr hnext)),
      if_neg (fun h => absurd h.1 (not_lt.mpr hd0.le))]

/-- C11 (amended) at the increment 3/8. -/
theorem oneShot_first_wrap_witness :
    ((0 : ℚ) < 3 / 8 ∧ (3 / 8 : ℚ) < 1) ∧
      1 ≤ ⌈1 / (3 / 8 : ℚ)⌉₊ ∧ wrapReported (3 / 8 : ℚ) (⌈1 / (3 / 8 : ℚ)⌉₊ - 1) 0 = true ∧
      ∀ j : Nat, j + 1 < ⌈1 / (3 / 8 : ℚ)⌉₊ → wrapReported (3 / 8 : ℚ) j 0 = false :=
  ⟨by norm_num, oneShot_first_wrap (3 / 8) (by norm_num) (by norm_num)⟩

/-! ## The parabolic sine -/

/-- C12: `parabolicSine` is zero at zero and odd-symmetric: `parabolicSine(0) = 0` and
`parabolicSine(-a) = -parabolicSine(a)` for every angle `a`. -/
theorem parabolicSine_zero_and_odd (kPi a : R) :
    parabolicSine kPi 0 = 0 ∧ parabolicSine kPi (-a) = -parabolicSine kPi a := by
  refine ⟨?_, parabolicSine_neg kPi a⟩
  rw [parabolicSine_eq]
  simp

/-- C13: at the interval ends the parabolic sine is within 0.02 of the true sine (which is
0 there): in exact real arithmetic `|parabolicSine(pi)| < 0.02` and
`|parabolicSine(-pi)| < 0.02`. -/
theorem parabolicSine_at_interval_ends :
    |parabolicSine Real.pi Real.pi| < 0.02 ∧ |parabolicSine Real.pi (-Real.pi)| < 0.02 := by
  have hend : parabolicSine Real.pi Real.pi = 0 := by
    rw [parabolicSine_upper_half Real.pi Real.pi Real.pi_pos Real.pi_pos.le le_rfl,
      div_self Real.pi_ne_zero]
    norm_num
  rw [parabolicSine_neg, hend]
  norm_num

/-- C15: the parabolic approximation has a small bounded error over its whole domain: in
exact real arithmetic, for every angle `a` with `-pi ≤ a ≤ pi`,
`|parabolicSine(a) - sin(a)| < 0.02`. -/
theorem parabolicSine_error_bound (a : ℝ) (ha0 : -Real.pi ≤ a) (ha1 : a ≤ Real.pi) :
    |parabolicSine Real.pi a - Real.sin a| < 0.02 := by
  have hlit : (0.02 : ℝ) = 1 / 50 := by norm_num
  rw [hlit]
  rcases le_total 0 a with hpos | hneg
  · exact parabolicSine_near_sin_upper_half a hpos ha1
  · have := parabolicSine_near_sin_upper_half (-a) (by linarith) (by linarith)
    rw [parabolicSine_neg, Real.sin_neg, ← neg_sub', abs_neg] at this
    exact this

/-- C15 at the angle 1. -/
theorem parabolicSine_error_bound_witness :
    (-Real.pi ≤ 1 ∧ (1 : ℝ) ≤ Real.pi) ∧ |parabolicSine Real.pi 1 - Real.sin 1| < 0.02 :=
  ⟨⟨by linarith [Real.pi_gt_three], by linarith [Real.pi_gt_three]⟩,
    parabolicSine_error_bound 1 (by linarith [Real.pi_gt_three])
      (by linarith [Real.pi_gt_three])⟩

/-- C16: on its domain `parabolicSine` stays in the bipolar range: in exact real arithmetic,
for every angle `a` with `-pi ≤ a ≤ pi`, `-1 ≤ parabolicSine(a) ≤ 1`, and the bounds are
attained, `parabolicSine(pi/2) = 1` and `parabolicSine(-pi/2) = -1`. -/
theorem parabolicSine_bipolar_range (a : ℝ) (ha0 : -Real.pi ≤ a) (ha1 : a ≤ Real.pi) :
    (-1 ≤ parabolicSine Real.pi a ∧ parabolicSine Real.pi a ≤ 1) ∧
      parabolicSine Real.pi (Real.pi / 2) = 1 ∧
      parabolicSine Real.pi (-(Real.pi / 2)) = -1 := by
  have hpeak : parabolicSine Real.pi (Real.pi / 2) = 1 := by
    have hhalf : Real.pi / 2 / Real.pi = 1 / 2 := by
      field_simp
      ring
    rw [parabolicSine_upper_half Real.pi (Real.pi / 2) Real.pi_pos
      (by linarith [Real.pi_pos]) (by linarith [Real.pi_pos]), hhalf]
    norm_num
  refine ⟨?_, hpeak, by rw [parabolicSine_neg, hpeak]⟩
  rcases le_total 0 a with hpos | hneg
  · obtain ⟨h0, h1⟩ := parabolicSine_upper_half_range Real.pi a Real.pi_pos hpos ha1
    exact ⟨by linarith, h1⟩
  · obtain ⟨h0, h1⟩ :=
      parabolicSine_upper_half_range Real.pi (-a) Real.pi_pos (by linarith) (by linarith)
    rw [parabolicSine_neg] at h0 h1
    exact ⟨by linarith, by linarith⟩

/-- C16 at the angle 1. -/
theorem parabolicSine_bipolar_range_witness :
    (-Real.pi ≤ 1 ∧ (1 : ℝ) ≤ Real.pi) ∧
      (-1 ≤ parabolicSine Real.pi 1 ∧ parabolicSine Real.pi 1 ≤ 1) ∧
      parabolicSine Real.pi (Real.pi / 2) = 1 ∧
      parabolicSine Real.pi (-(Real.pi / 2)) = -1 :=
  ⟨⟨by linarith [Real.pi_gt_three], by linarith [Real.pi_gt_three]⟩,
    parabolicSine_bipolar_range 1 (by linarith [Real.pi_gt_three])
      (by linarith [Real.pi_gt_three])⟩

/-! ## Return values, frame conditions and the two wrap helpers -/

/-- C14: the note and reset operations return the success indicator unconditionally:
`reset(sr)` returns `true` for every `sr` (zero and negative included), and `doNoteOn` and
`doNoteOff` return `true` for every pitch, note number, velocity, mode and prior state. -/
theorem operations_return_true (s : SynthLFO R) (sr midiPitch : R)
    (midiNoteNumber midiNoteVelocity : Nat) :
    (s.reset sr).1 = true ∧
      (s.doNoteOn midiPitch midiNoteNumber midiNoteVelocity).1 = true ∧
      (s.doNoteOff midiPitch midiNoteNumber midiNoteVelocity).1 = true :=
  ⟨rfl, rfl, rfl⟩

/-- C17: for reverse phase motion the step keeps the counter in `(0,1]`: for every counter
`c` with `0 < c ≤ 1` and every increment with `-1 < inc < 0`, the counter after
`advanceAndCheckWrapModulo(c, inc)` satisfies `0 < c' ≤ 1`, and a counter that lands
exactly on 0 is wrapped to 1.0. -/
theorem advanceAndCheckWrapModulo_reverse_range (c inc : R) (hc0 : 0 < c) (hc1 : c ≤ 1)
    (hi0 : -1 < inc) (hi1 : inc < 0) :
    (0 < (advanceAndCheckWrapModulo c inc).2 ∧ (advanceAndCheckWrapModulo c inc).2 ≤ 1) ∧
      (c + inc = 0 → advanceAndCheckWrapModulo c inc = (true, 1)) := by
  refine ⟨advance_reverse_range c inc hc0.le hc1 hi0 hi1, ?_⟩
  intro hzero
  rw [advanceAndCheckWrapModulo_eq, if_neg (fun h => absurd h.1 (not_lt.mpr hi1.le)),
    if_pos ⟨hi1, hzero.le⟩, hzero, zero_add]

/-- C17 at the counter 1/4 and the increment -1/4, which lands on 0. -/
theorem advanceAndCheckWrapModulo_reverse_range_witness :
    ((0 : ℚ) < 1 / 4 ∧ (1 / 4 : ℚ) ≤ 1 ∧ (-1 : ℚ) < -1 / 4 ∧ (-1 / 4 : ℚ) < 0) ∧
      (0 < (advanceAndCheckWrapModulo (1 / 4 : ℚ) (-1 / 4)).2 ∧
        (advanceAndCheckWrapModulo (1 / 4 : ℚ) (-1 / 4)).2 ≤ 1) ∧
      ((1 / 4 : ℚ) + -1 / 4 = 0 → advanceAndCheckWrapModulo (1 / 4 : ℚ) (-1 / 4) = (true, 1)) :=
  ⟨by norm_num,
    advanceAndCheckWrapModulo_reverse_range (1 / 4) (-1 / 4) (by norm_num) (by norm_num)
      (by norm_num) (by norm_num)⟩

/-- C18: `doNoteOn` touches only the restart state. For every mode, prior state and note
arguments, `sampleRate`, `phaseInc`, `pnRegister`, `randomSHValue` and the parameter block
are the same after `doNoteOn` as before it; hence after `reset(sr)` followed by any sequence
of `doNoteOn` / `doNoteOff` calls the parameters are unchanged and
`phaseInc = frequency_Hz / sampleRate` still holds. -/
theorem doNoteOn_frame (s : SynthLFO R) (sr midiPitch : R)
    (midiNoteNumber midiNoteVelocity : Nat) (events : List (NoteEvent R)) :
    ((s.doNoteOn midiPitch midiNoteNumber midiNoteVelocity).2.sampleRate = s.sampleRate ∧
        (s.doNoteOn midiPitch midiNoteNumber midiNoteVelocity).2.phaseInc = s.phaseInc ∧
        (s.doNoteOn midiPitch midiNoteNumber midiNoteVelocity).2.pnRegister = s.pnRegister ∧
        (s.doNoteOn midiPitch midiNoteNumber midiNoteVelocity).2.randomSHValue =
          s.randomSHValue ∧
        (s.doNoteOn midiPitch midiNoteNumber midiNoteVelocity).2.parameters = s.parameters) ∧
      (applyNoteEvents (s.reset sr).2 events).parameters = s.parameters ∧
      (applyNoteEvents (s.reset sr).2 events).sampleRate = sr ∧
      (applyNoteEvents (s.reset sr).2 events).phaseInc =
        (applyNoteEvents (s.reset sr).2 events).parameters.frequency_Hz /
          (applyNoteEvents (s.reset sr).2 events).sampleRate := by
  constructor
  · by_cases hmode : s.parameters.mode = LFOMode.kSync ∨ s.parameters.mode = LFOMode.kOneShot
    · simp [doNoteOn, if_pos hmode]
    · simp [doNoteOn, if_neg hmode]
  · obtain ⟨h1, h2, h3⟩ := applyNoteEvents_frame events (s.reset sr).2
    rw [h1, h2, h3]
    exact ⟨rfl, rfl, rfl⟩

/-- C19: the two wrap helpers agree. For every counter `c` and every increment `inc`,
`advanceAndCheckWrapModulo(c, inc)` yields the same final counter and the same returned
flag as `advanceModulo(c, inc)` followed by `checkAndWrapModulo` on the advanced counter
with the same `inc`. -/
theorem wrap_helpers_agree (c inc : R) :
    advanceAndCheckWrapModulo c inc = checkAndWrapModulo (advanceModulo c inc) inc := rfl

end SynthLFO
